import Mathlib

/-!
Shallow embedding of the Capynaut shortcut manager (`src/index.ts`).

Capynaut keeps a list of key bindings, parses shortcut-spec strings such as
`"ctrl+c|v"` into key sequences, and matches normalized keyboard / mouse
events against the registered bindings.

JavaScript strings are modelled as Lean `String`; the handful of string
operations the source uses (`toLowerCase`, `split`, `trim`, `includes`,
`join`, `Array.prototype.sort`) are re-implemented structurally over
`List Char` so that every definition evaluates by kernel reduction.
Callbacks are modelled by an opaque numeric identity (`Nat`): the program
never inspects a callback, it only stores it and invokes it, so identity
is all the claims need.  `console.warn` output is modelled as a list of
`Warning` values and thrown `TypeError`s as an `Except Err` result.
-/

deriving instance DecidableEq for Except

namespace Capynaut

/-! ### JavaScript string primitives, structurally recursive -/

/-- `String.prototype.split` with a one-character separator, JS semantics:
`"".split("+") = [""]`, `"a++b".split("+") = ["a","","b"]`. -/
def splitChars (sep : Char) : List Char → List (List Char)
  | [] => [[]]
  | c :: cs =>
      let rest := splitChars sep cs
      if c == sep then [] :: rest
      else
        match rest with
        | [] => [[c]]
        | r :: rs => (c :: r) :: rs

/-- `String.prototype.trim`: drop whitespace from both ends. -/
def trimChars (cs : List Char) : List Char :=
  ((cs.dropWhile Char.isWhitespace).reverse.dropWhile Char.isWhitespace).reverse

/-- Lexicographic order on the characters, the order `Array.prototype.sort`
uses on strings (code-unit order; identical to code-point order on the
characters appearing in shortcut specs). -/
def lexLe : List Char → List Char → Bool
  | [], _ => true
  | _ :: _, [] => false
  | a :: as, b :: bs =>
      if a.toNat < b.toNat then true
      else if b.toNat < a.toNat then false
      else lexLe as bs

/-- `String.prototype.toLowerCase` (ASCII range, which covers every key
token the program manipulates). -/
def jsToLower (s : String) : String := ⟨s.data.map Char.toLower⟩

/-- `split` lifted to `String`. -/
def jsSplit (sep : Char) (s : String) : List String :=
  (splitChars sep s.data).map (fun cs => ⟨cs⟩)

/-- `trim` lifted to `String`. -/
def jsTrim (s : String) : String := ⟨trimChars s.data⟩

/-- String comparison used by `sort`. -/
def strLe (a b : String) : Bool := lexLe a.data b.data

/-- `Array.prototype.join(sep)` for an array of strings. -/
def jsJoin (sep : List Char) : List String → String
  | [] => ""
  | x :: rest => ⟨x.data ++ rest.foldl (fun acc y => acc ++ sep ++ y.data) []⟩

/-- JS truthiness of a string: non-empty. -/
def truthy (s : String) : Bool := !s.data.isEmpty

/-! ### The static alias table -/

/-- `Capynaut.#KEY_ALIAS`. -/
def KEY_ALIAS : List (String × String) :=
  [("esc", "escape"), ("del", "delete"), ("space", " "),
   ("control", "ctrl"), ("alt", "alt"), ("shift", "shift"), ("meta", "meta")]

/-- `Capynaut.#KEY_ALIAS[k]` as an optional value. -/
def aliasLookup (k : String) : Option String :=
  (KEY_ALIAS.find? (fun p => p.1 == k)).map (fun p => p.2)

/-- `Capynaut.#KEY_ALIAS[k] || k`.  Every value in the table is a truthy
string, so this is exactly "the alias target if `k` is a table key,
otherwise `k` itself". -/
def aliasResolve (k : String) : String := (aliasLookup k).getD k

/-! ### The key-spec parser (`#parseKeys`) -/

/-- `keys.toLowerCase().split("+").map(key => key.trim())`. -/
def keyPartsOf (keys : String) : List String :=
  (jsSplit '+' (jsToLower keys)).map jsTrim

/-- The `keyParts.forEach` loop of `#parseKeys`: parts containing `|` are
split on `|` and their alias-resolved alternatives pushed to `keysSplit`;
every other part is alias-resolved and pushed to `keysBase`. -/
def partsAccum (parts : List String) : List String × List String :=
  parts.foldl
    (fun acc part =>
      if part.data.contains '|' then
        (acc.1, acc.2 ++ (jsSplit '|' part).map aliasResolve)
      else
        (acc.1 ++ [aliasResolve part], acc.2))
    ([], [])

/-- The `keysBase` array after the loop. -/
def keysBaseOf (keys : String) : List String := (partsAccum (keyPartsOf keys)).1

/-- The `keysSplit` array after the loop. -/
def keysSplitOf (keys : String) : List String := (partsAccum (keyPartsOf keys)).2

/-- The `TypeError`s the class throws. -/
inductive Err where
  /-- "keys must be a string and cannot be empty" -/
  | emptyKeys
  /-- "keys is not defined correctly" -/
  | invalidKeys
deriving DecidableEq

/-- `#parseKeys`. -/
def parseKeys (keys : String) : Except Err (List (List String)) :=
  let keysBase := keysBaseOf keys
  let keysSplit := keysSplitOf keys
  if keysSplit.isEmpty then
    .ok [keysBase]
  else
    let keysMerged := (keysSplit.filter (fun k => truthy (jsTrim k))).map
      (fun k => keysBase ++ [k])
    if keysMerged.isEmpty then .error .invalidKeys else .ok keysMerged

/-! ### Registry state and operations -/

/-- The `keyBinding` record type.  `callback` is an opaque identity. -/
structure keyBinding where
  keys : List String
  callback : Nat
  description : String
  enabled : Bool
deriving DecidableEq

/-- `keys.join("+")`. -/
def joinPlus (ks : List String) : String := jsJoin ['+'] ks

/-- The `console.warn` messages, as structured values. -/
inductive Warning where
  /-- "Shortcut ... is already registered" -/
  | alreadyRegistered (keysJoin : String)
  /-- "Shortcut ... is not registered" -/
  | notRegistered (keysJoin : String)
  /-- "Shortcut ... is not registered and cannot be enabled/disabled" -/
  | cannotToggle (keysJoin : String) (enabled : Bool)
deriving DecidableEq

/-- The mutable state of one `Capynaut` instance: the `#bindings` array,
whether the two listeners are attached, and the `#debug` flag. -/
structure CapynautState where
  bindings : List keyBinding
  attached : Bool
  debugMode : Bool
deriving DecidableEq

/-- State right after `new Capynaut(element)`: listeners attached, no
bindings, debug off. -/
def initState : CapynautState :=
  { bindings := [], attached := true, debugMode := false }

/-- `this.#bindings.some(binding => binding.keys.join("+") === keysJoin)`. -/
def hasJoin (bs : List keyBinding) (keysJoin : String) : Bool :=
  bs.any (fun b => joinPlus b.keys == keysJoin)

/-- Body of the `parsedKeys.forEach` loop in `bind`, threading the bindings
array and the warnings emitted so far. -/
def bindStep (cb : Nat) (desc : String) (en : Bool)
    (acc : List keyBinding × List Warning) (ks : List String) :
    List keyBinding × List Warning :=
  let keysJoin := joinPlus ks
  if hasJoin acc.1 keysJoin then
    (acc.1, acc.2 ++ [Warning.alreadyRegistered keysJoin])
  else
    (acc.1 ++ [{ keys := ks, callback := cb, description := desc, enabled := en }],
     acc.2)

/-- `bind(keys, callback, description, enabled)`.  The `typeof` checks on
`callback`, `description` and `enabled` are enforced by this model's types;
the dynamic check on `keys` (non-empty after trim) is explicit. -/
def bind (s : CapynautState) (keys : String) (cb : Nat) (desc : String)
    (en : Bool) : Except Err (CapynautState × List Warning) :=
  if !truthy (jsTrim keys) then .error .emptyKeys
  else
    match parseKeys keys with
    | .error e => .error e
    | .ok parsedKeys =>
        let r := parsedKeys.foldl (bindStep cb desc en) (s.bindings, [])
        .ok ({ s with bindings := r.1 }, r.2)

/-- Body of the `parsedKeys.forEach` loop in `unbind`. -/
def unbindStep (acc : List keyBinding × List Warning) (ks : List String) :
    List keyBinding × List Warning :=
  let keysJoin := joinPlus ks
  let filtered := acc.1.filter (fun b => !(joinPlus b.keys == keysJoin))
  if filtered.length == acc.1.length then
    (filtered, acc.2 ++ [Warning.notRegistered keysJoin])
  else
    (filtered, acc.2)

/-- `unbind(keys)`. -/
def unbind (s : CapynautState) (keys : String) :
    Except Err (CapynautState × List Warning) :=
  if !truthy (jsTrim keys) then .error .emptyKeys
  else
    match parseKeys keys with
    | .error e => .error e
    | .ok parsedKeys =>
        let r := parsedKeys.foldl unbindStep (s.bindings, [])
        .ok ({ s with bindings := r.1 }, r.2)

/-- Body of the `parsedKeys.forEach` loop in `rebind`: filter out bindings
with the matching join; if anything was removed, push the replacement at
the end, otherwise warn. -/
def rebindStep (cb : Nat) (desc : String) (en : Bool)
    (acc : List keyBinding × List Warning) (ks : List String) :
    List keyBinding × List Warning :=
  let keysJoin := joinPlus ks
  let filtered := acc.1.filter (fun b => !(keysJoin == joinPlus b.keys))
  if filtered.length < acc.1.length then
    (filtered ++ [{ keys := ks, callback := cb, description := desc, enabled := en }],
     acc.2)
  else
    (filtered, acc.2 ++ [Warning.notRegistered keysJoin])

/-- `rebind(keys, callback, description, enabled)`. -/
def rebind (s : CapynautState) (keys : String) (cb : Nat) (desc : String)
    (en : Bool) : Except Err (CapynautState × List Warning) :=
  if !truthy (jsTrim keys) then .error .emptyKeys
  else
    match parseKeys keys with
    | .error e => .error e
    | .ok parsedKeys =>
        let r := parsedKeys.foldl (rebindStep cb desc en) (s.bindings, [])
        .ok ({ s with bindings := r.1 }, r.2)

/-- Body of the `parsedKeys.forEach` loop in `#toggle`: set `enabled` on
every binding whose join matches, warn when none did. -/
def toggleStep (en : Bool) (acc : List keyBinding × List Warning)
    (ks : List String) : List keyBinding × List Warning :=
  let keysJoin := joinPlus ks
  let updated := acc.1.map
    (fun b => if joinPlus b.keys == keysJoin then { b with enabled := en } else b)
  if hasJoin acc.1 keysJoin then (updated, acc.2)
  else (updated, acc.2 ++ [Warning.cannotToggle keysJoin en])

/-- `#toggle(keys, enabled)` (no argument validation: private helper). -/
def toggle (s : CapynautState) (keys : String) (en : Bool) :
    Except Err (CapynautState × List Warning) :=
  match parseKeys keys with
  | .error e => .error e
  | .ok parsedKeys =>
      let r := parsedKeys.foldl (toggleStep en) (s.bindings, [])
      .ok ({ s with bindings := r.1 }, r.2)

/-- `enable(keys)`. -/
def enable (s : CapynautState) (keys : String) :
    Except Err (CapynautState × List Warning) :=
  if !truthy (jsTrim keys) then .error .emptyKeys else toggle s keys true

/-- `disable(keys)`. -/
def disable (s : CapynautState) (keys : String) :
    Except Err (CapynautState × List Warning) :=
  if !truthy (jsTrim keys) then .error .emptyKeys else toggle s keys false

/-- `debug(enabled)`. -/
def debug (s : CapynautState) (en : Bool) : CapynautState :=
  { s with debugMode := en }

/-- `destroy()`: removes both listeners (a no-op when they are already
removed) and clears the bindings array. -/
def destroy (s : CapynautState) : CapynautState :=
  { s with bindings := [], attached := false }

/-! ### Event normalization and matching (`#handleKeydown`) -/

/-- The events delivered to the handler.  `keydown` carries the four
modifier flags and `event.key`; `click` carries the modifier flags;
`other` is any event that is neither a `KeyboardEvent` nor a `MouseEvent`. -/
inductive InputEvent where
  | keydown (ctrlKey altKey shiftKey metaKey : Bool) (key : String)
  | click (ctrlKey altKey shiftKey metaKey : Bool)
  | other
deriving DecidableEq

/-- The four modifier pushes, in source order: ctrl, alt, shift, meta. -/
def modTokens (c a sh m : Bool) : List String :=
  (if c then ["ctrl"] else []) ++ (if a then ["alt"] else []) ++
    (if sh then ["shift"] else []) ++ (if m then ["meta"] else [])

/-- The `pressed` array built by `#handleKeydown`, or `none` when the event
is neither a keyboard nor a mouse event (the early `return`). -/
def buildPressed : InputEvent → Option (List String)
  | .keydown c a sh m k =>
      let keyPressed := jsToLower k
      some (modTokens c a sh m ++
        (if (aliasLookup keyPressed).isSome then [] else [keyPressed]))
  | .click c a sh m => some (modTokens c a sh m ++ ["click"])
  | .other => none

/-- `[...keys].sort()` for the insertion step. -/
def orderedInsertStr (a : String) : List String → List String
  | [] => [a]
  | b :: l => if strLe a b then a :: b :: l else b :: orderedInsertStr a l

/-- `[...keys].sort()`: ascending string sort. -/
def sortStrings : List String → List String
  | [] => []
  | b :: l => orderedInsertStr b (sortStrings l)

/-- `[...keys].sort().join("+")`. -/
def sortJoin (ks : List String) : String := joinPlus (sortStrings ks)

/-- The loop condition `sortedBinding === sortedPressed && binding.enabled`. -/
def isMatch (pressed : List String) (b : keyBinding) : Bool :=
  sortJoin b.keys == sortJoin pressed && b.enabled

/-- The `for ... break` loop over `this.#bindings`: index of the first
binding satisfying `isMatch`, whose callback is the one invoked. -/
def matchLoop (pressed : List String) : List keyBinding → Option Nat
  | [] => none
  | b :: rest =>
      if isMatch pressed b then some 0
      else (matchLoop pressed rest).map (fun i => i + 1)

/-- Observable outcome of one `#handleKeydown` call: the `pressed` tokens,
the index of the binding whose callback fired (if any), whether
`preventDefault` was called, and the debug log line (if any). -/
structure HandleResult where
  pressed : List String
  fired : Option Nat
  prevented : Bool
  debugOut : Option String
deriving DecidableEq

/-- `#handleKeydown(event)`.  Returns `none` for events that take the early
`return` (no normalization, no matching, no debug output). -/
def handleKeydown (bs : List keyBinding) (dbg : Bool) (e : InputEvent) :
    Option HandleResult :=
  match buildPressed e with
  | none => none
  | some pressed =>
      let fired := matchLoop pressed bs
      some { pressed := pressed, fired := fired, prevented := fired.isSome,
             debugOut := if dbg then some (jsJoin [' ', '+', ' '] pressed) else none }

/-- One event dispatched at the element: the handler runs only while the
listeners are attached. -/
def dispatch (s : CapynautState) (e : InputEvent) : Option HandleResult :=
  if s.attached then handleKeydown s.bindings s.debugMode e else none

/-! ### Public-API operation sequences -/

/-- One public mutating call. -/
inductive Op where
  | bindO (keys : String) (cb : Nat) (desc : String) (en : Bool)
  | unbindO (keys : String)
  | rebindO (keys : String) (cb : Nat) (desc : String) (en : Bool)
  | enableO (keys : String)
  | disableO (keys : String)
  | debugO (en : Bool)
  | destroyO

/-- Apply one public call; a thrown `TypeError` leaves the state unchanged
(every mutation in the source happens after the parse succeeds). -/
def applyOp (s : CapynautState) : Op → CapynautState
  | .bindO k cb d e =>
      match bind s k cb d e with | .ok r => r.1 | .error _ => s
  | .unbindO k =>
      match unbind s k with | .ok r => r.1 | .error _ => s
  | .rebindO k cb d e =>
      match rebind s k cb d e with | .ok r => r.1 | .error _ => s
  | .enableO k =>
      match enable s k with | .ok r => r.1 | .error _ => s
  | .disableO k =>
      match disable s k with | .ok r => r.1 | .error _ => s
  | .debugO e => debug s e
  | .destroyO => destroy s

/-- Run a sequence of public calls from a fresh instance. -/
def runOps (ops : List Op) : CapynautState := ops.foldl applyOp initState

/-- The join strings of a bindings array, in order. -/
def joins (bs : List keyBinding) : List String := bs.map (fun b => joinPlus b.keys)

/-- At most one binding per distinct parsed-order join string. -/
def JoinsUnique (bs : List keyBinding) : Prop := (joins bs).Nodup

/-! ### Helper lemmas -/

theorem foldl_preserve {α β : Type} (P : α → Prop) (step : α → β → α)
    (h : ∀ acc x, P acc → P (step acc x)) :
    ∀ (l : List β) (acc : α), P acc → P (l.foldl step acc) := by
  intro l
  induction l with
  | nil => intro acc hacc; exact hacc
  | cons x xs ih => intro acc hacc; exact ih (step acc x) (h acc x hacc)

theorem hasJoin_true_iff (bs : List keyBinding) (j : String) :
    hasJoin bs j = true ↔ j ∈ joins bs := by
  simp only [hasJoin, List.any_eq_true, beq_iff_eq, joins, List.mem_map]

theorem hasJoin_false_iff (bs : List keyBinding) (j : String) :
    hasJoin bs j = false ↔ j ∉ joins bs := by
  rw [← Bool.not_eq_true, not_iff_not]
  exact hasJoin_true_iff bs j

theorem joins_append (bs cs : List keyBinding) :
    joins (bs ++ cs) = joins bs ++ joins cs := by
  simp [joins]

theorem JoinsUnique_filter (bs : List keyBinding) (p : keyBinding → Bool)
    (h : JoinsUnique bs) : JoinsUnique (bs.filter p) :=
  List.Nodup.sublist (List.Sublist.map _ (List.filter_sublist bs)) h

theorem joins_map_keysEq (bs : List keyBinding) (f : keyBinding → keyBinding)
    (h : ∀ b, (f b).keys = b.keys) : joins (bs.map f) = joins bs := by
  simp only [joins, List.map_map]
  exact List.map_congr_left (fun b _ => by simp [Function.comp, h])

theorem JoinsUnique_bindStep (cb : Nat) (desc : String) (en : Bool)
    (acc : List keyBinding × List Warning) (ks : List String)
    (h : JoinsUnique acc.1) : JoinsUnique (bindStep cb desc en acc ks).1 := by
  unfold bindStep
  rcases hj : hasJoin acc.1 (joinPlus ks) with _ | _
  · simp only [hj, Bool.false_eq_true, if_false]
    have hnot : joinPlus ks ∉ joins acc.1 := (hasJoin_false_iff _ _).mp hj
    unfold JoinsUnique
    rw [joins_append]
    rw [List.nodup_append]
    refine ⟨h, List.nodup_singleton _, ?_⟩
    intro x hx hx'
    simp only [joins, List.map_cons, List.map_nil, List.mem_singleton] at hx'
    exact hnot (hx' ▸ hx)
  · simp only [hj, if_true]
    exact h

theorem JoinsUnique_unbindStep (acc : List keyBinding × List Warning)
    (ks : List String) (h : JoinsUnique acc.1) :
    JoinsUnique (unbindStep acc ks).1 := by
  unfold unbindStep
  rcases hl : (acc.1.filter fun b => !(joinPlus b.keys == joinPlus ks)).length == acc.1.length with _ | _ <;>
    simp only [hl, Bool.false_eq_true, if_false, if_true] <;>
    exact JoinsUnique_filter _ _ h

theorem JoinsUnique_rebindStep (cb : Nat) (desc : String) (en : Bool)
    (acc : List keyBinding × List Warning) (ks : List String)
    (h : JoinsUnique acc.1) : JoinsUnique (rebindStep cb desc en acc ks).1 := by
  unfold rebindStep
  by_cases hl : (acc.1.filter fun b => !(joinPlus ks == joinPlus b.keys)).length < acc.1.length
  · simp only [hl, if_true]
    have hfil : JoinsUnique (acc.1.filter fun b => !(joinPlus ks == joinPlus b.keys)) :=
      JoinsUnique_filter _ _ h
    unfold JoinsUnique
    rw [joins_append, List.nodup_append]
    refine ⟨hfil, List.nodup_singleton _, ?_⟩
    intro x hx hx'
    simp only [joins, List.map_cons, List.map_nil, List.mem_singleton] at hx'
    subst hx'
    simp only [joins, List.mem_map] at hx
    obtain ⟨b, hb, hbj⟩ := hx
    have := List.of_mem_filter hb
    rw [hbj] at this
    simp at this
  · simp only [hl, if_false]
    exact JoinsUnique_filter _ _ h

theorem JoinsUnique_toggleStep (en : Bool)
    (acc : List keyBinding × List Warning) (ks : List String)
    (h : JoinsUnique acc.1) : JoinsUnique (toggleStep en acc ks).1 := by
  unfold toggleStep
  have hkeys : ∀ b : keyBinding,
      ((if joinPlus b.keys == joinPlus ks then { b with enabled := en } else b) : keyBinding).keys
        = b.keys := by
    intro b
    rcases hc : joinPlus b.keys == joinPlus ks with _ | _ <;> simp [hc]
  rcases hf : hasJoin acc.1 (joinPlus ks) with _ | _ <;>
    simp only [hf, Bool.false_eq_true, if_false, if_true] <;>
    · unfold JoinsUnique
      rw [joins_map_keysEq _ _ hkeys]
      exact h

theorem JoinsUnique_applyOp (s : CapynautState) (op : Op)
    (h : JoinsUnique s.bindings) : JoinsUnique (applyOp s op).bindings := by
  cases op with
  | bindO k cb d e =>
      simp only [applyOp]
      unfold bind
      rcases htr : !truthy (jsTrim k) with _ | _
      · simp only [htr, Bool.false_eq_true, if_false]
        rcases hp : parseKeys k with e' | l
        · simpa using h
        · simp only []
          exact foldl_preserve (fun acc => JoinsUnique acc.1) _
            (fun acc x hacc => JoinsUnique_bindStep cb d e acc x hacc) l (s.bindings, []) h
      · simp only [htr, if_true]
        exact h
  | unbindO k =>
      simp only [applyOp]
      unfold unbind
      rcases htr : !truthy (jsTrim k) with _ | _
      · simp only [htr, Bool.false_eq_true, if_false]
        rcases hp : parseKeys k with e' | l
        · simpa using h
        · simp only []
          exact foldl_preserve (fun acc => JoinsUnique acc.1) _
            (fun acc x hacc => JoinsUnique_unbindStep acc x hacc) l (s.bindings, []) h
      · simp only [htr, if_true]
        exact h
  | rebindO k cb d e =>
      simp only [applyOp]
      unfold rebind
      rcases htr : !truthy (jsTrim k) with _ | _
      · simp only [htr, Bool.false_eq_true, if_false]
        rcases hp : parseKeys k with e' | l
        · simpa using h
        · simp only []
          exact foldl_preserve (fun acc => JoinsUnique acc.1) _
            (fun acc x hacc => JoinsUnique_rebindStep cb d e acc x hacc) l (s.bindings, []) h
      · simp only [htr, if_true]
        exact h
  | enableO k =>
      simp only [applyOp]
      unfold enable toggle
      rcases htr : !truthy (jsTrim k) with _ | _
      · simp only [htr, Bool.false_eq_true, if_false]
        rcases hp : parseKeys k with e' | l
        · simpa using h
        · simp only []
          exact foldl_preserve (fun acc => JoinsUnique acc.1) _
            (fun acc x hacc => JoinsUnique_toggleStep true acc x hacc) l (s.bindings, []) h
      · simp only [htr, if_true]
        exact h
  | disableO k =>
      simp only [applyOp]
      unfold disable toggle
      rcases htr : !truthy (jsTrim k) with _ | _
      · simp only [htr, Bool.false_eq_true, if_false]
        rcases hp : parseKeys k with e' | l
        · simpa using h
        · simp only []
          exact foldl_preserve (fun acc => JoinsUnique acc.1) _
            (fun acc x hacc => JoinsUnique_toggleStep false acc x hacc) l (s.bindings, []) h
      · simp only [htr, if_true]
        exact h
  | debugO e => simpa [applyOp, debug] using h
  | destroyO => simp [applyOp, destroy, JoinsUnique, joins]

theorem matchLoop_some_iff (pressed : List String) :
    ∀ (bs : List keyBinding) (i : Nat),
      matchLoop pressed bs = some i ↔
        ∃ b, bs.get? i = some b ∧ isMatch pressed b = true ∧
          ∀ j b', j < i → bs.get? j = some b' → isMatch pressed b' = false := by
  intro bs
  induction bs with
  | nil =>
      intro i
      simp [matchLoop]
  | cons b rest ih =>
      intro i
      rcases hm : isMatch pressed b with _ | _
      · simp only [matchLoop, hm, Bool.false_eq_true, if_false]
        constructor
        · intro h
          rw [Option.map_eq_some'] at h
          obtain ⟨i', hi', rfl⟩ := h
          obtain ⟨b', hget, hmatch, hprev⟩ := (ih i').mp hi'
          refine ⟨b', by simpa using hget, hmatch, ?_⟩
          intro j b'' hj hget''
          cases j with
          | zero =>
              have : b'' = b := by simpa using hget''.symm
              subst this
              exact hm
          | succ j' =>
              exact hprev j' b'' (by omega) (by simpa using hget'')
        · rintro ⟨b', hget, hmatch, hprev⟩
          cases i with
          | zero =>
              have : b' = b := by simpa using hget.symm
              subst this
              rw [hm] at hmatch
              exact absurd hmatch (by simp)
          | succ i' =>
              rw [Option.map_eq_some']
              refine ⟨i', ?_, rfl⟩
              refine (ih i').mpr ⟨b', by simpa using hget, hmatch, ?_⟩
              intro j b'' hj hget''
              exact hprev (j + 1) b'' (by omega) (by simpa using hget'')
      · simp only [matchLoop, hm, if_true]
        constructor
        · intro h
          have h0 : i = 0 := by
            injection h with h'
            omega
          subst h0
          exact ⟨b, rfl, hm, by intro j b' hj _; omega⟩
        · rintro ⟨b', hget, hmatch, hprev⟩
          cases i with
          | zero => rfl
          | succ i' =>
              have := hprev 0 b (by omega) rfl
              rw [hm] at this
              exact absurd this (by simp)

theorem matchLoop_none_iff (pressed : List String) :
    ∀ bs : List keyBinding,
      matchLoop pressed bs = none ↔ ∀ b ∈ bs, isMatch pressed b = false := by
  intro bs
  induction bs with
  | nil => simp [matchLoop]
  | cons b rest ih =>
      rcases hm : isMatch pressed b with _ | _
      · simp [matchLoop, hm, Option.map_eq_none', ih, List.forall_mem_cons]
      · simp [matchLoop, hm, List.forall_mem_cons]

theorem partsAccum_go (parts : List String) :
    ∀ (b s : List String),
      parts.foldl
        (fun acc part =>
          if part.data.contains '|' then
            (acc.1, acc.2 ++ (jsSplit '|' part).map aliasResolve)
          else
            (acc.1 ++ [aliasResolve part], acc.2)) (b, s) =
      (b ++ ((parts.filter (fun p => !(p.data.contains '|'))).map aliasResolve),
       s ++ ((parts.filter (fun p => p.data.contains '|')).flatMap
         (fun p => (jsSplit '|' p).map aliasResolve))) := by
  induction parts with
  | nil => intro b s; simp
  | cons p ps ih =>
      intro b s
      rcases hc : p.data.contains '|' with _ | _
      · rw [List.foldl_cons]
        simp only [hc, Bool.false_eq_true, if_false]
        rw [ih]
        rw [List.filter_cons, List.filter_cons]
        simp only [hc, Bool.not_false, if_true, Bool.false_eq_true, if_false,
          List.map_cons, List.append_assoc, List.singleton_append]
      · rw [List.foldl_cons]
        simp only [hc, if_true]
        rw [ih]
        rw [List.filter_cons, List.filter_cons]
        simp only [hc, Bool.not_true, if_true, Bool.false_eq_true, if_false,
          List.flatMap_cons, List.append_assoc]

theorem keysBaseOf_eq (keys : String) :
    keysBaseOf keys =
      ((keyPartsOf keys).filter (fun p => !(p.data.contains '|'))).map aliasResolve := by
  unfold keysBaseOf partsAccum
  rw [partsAccum_go]
  simp

theorem keysSplitOf_eq (keys : String) :
    keysSplitOf keys =
      ((keyPartsOf keys).filter (fun p => p.data.contains '|')).flatMap
        (fun p => (jsSplit '|' p).map aliasResolve) := by
  unfold keysSplitOf partsAccum
  rw [partsAccum_go]
  simp

theorem toggle_foldl_fst (en : Bool) :
    ∀ (l : List (List String)) (bs : List keyBinding) (ws : List Warning),
      (l.foldl (toggleStep en) (bs, ws)).1 =
        bs.map (fun b =>
          if l.any (fun ks => joinPlus b.keys == joinPlus ks) then
            { b with enabled := en } else b) := by
  intro l
  induction l with
  | nil =>
      intro bs ws
      simp
  | cons ks rest ih =>
      intro bs ws
      have hstep : ∃ ws', toggleStep en (bs, ws) ks =
          (bs.map (fun b =>
            if joinPlus b.keys == joinPlus ks then { b with enabled := en } else b),
           ws') := by
        unfold toggleStep
        rcases hh : hasJoin bs (joinPlus ks) with _ | _ <;>
          simp only [hh, Bool.false_eq_true, if_false, if_true] <;>
          exact ⟨_, rfl⟩
      obtain ⟨ws', hws'⟩ := hstep
      rw [List.foldl_cons, hws', ih, List.map_map]
      apply List.map_congr_left
      intro b _
      simp only [Function.comp]
      rcases h1 : joinPlus b.keys == joinPlus ks with _ | _ <;>
        simp [h1, List.any_cons]

theorem hasJoin_false_forall {bs : List keyBinding} {j : String}
    (h : hasJoin bs j = false) : ∀ b ∈ bs, (joinPlus b.keys == j) = false := by
  intro b hb
  have h' : bs.any (fun b => joinPlus b.keys == j) = false := h
  rw [List.any_eq_false] at h'
  exact Bool.eq_false_iff.mpr (h' b hb)

theorem toggle_foldl_nomatch (en : Bool) :
    ∀ (l : List (List String)) (bs : List keyBinding) (ws : List Warning),
      (∀ ks ∈ l, hasJoin bs (joinPlus ks) = false) →
      l.foldl (toggleStep en) (bs, ws) =
        (bs, ws ++ l.map (fun ks => Warning.cannotToggle (joinPlus ks) en)) := by
  intro l
  induction l with
  | nil =>
      intro bs ws _
      simp
  | cons ks rest ih =>
      intro bs ws h
      have hks := h ks (List.mem_cons_self _ _)
      have hstep : toggleStep en (bs, ws) ks =
          (bs, ws ++ [Warning.cannotToggle (joinPlus ks) en]) := by
        simp only [toggleStep, hks, Bool.false_eq_true, if_false]
        have hid : ∀ b ∈ bs,
            (if joinPlus b.keys == joinPlus ks then { b with enabled := en } else b) = b := by
          intro b hb
          simp [hasJoin_false_forall hks b hb]
        rw [List.map_congr_left hid, List.map_id']
      rw [List.foldl_cons, hstep,
        ih bs _ (fun ks' h' => h ks' (List.mem_cons_of_mem _ h'))]
      simp

theorem bind_foldl_alldup (cb : Nat) (desc : String) (en : Bool) :
    ∀ (l : List (List String)) (bs : List keyBinding) (ws : List Warning),
      (∀ ks ∈ l, hasJoin bs (joinPlus ks) = true) →
      l.foldl (bindStep cb desc en) (bs, ws) =
        (bs, ws ++ l.map (fun ks => Warning.alreadyRegistered (joinPlus ks))) := by
  intro l
  induction l with
  | nil =>
      intro bs ws _
      simp
  | cons ks rest ih =>
      intro bs ws h
      have hks := h ks (List.mem_cons_self _ _)
      have hstep : bindStep cb desc en (bs, ws) ks =
          (bs, ws ++ [Warning.alreadyRegistered (joinPlus ks)]) := by
        simp only [bindStep, hks, if_true]
      rw [List.foldl_cons, hstep,
        ih bs _ (fun ks' h' => h ks' (List.mem_cons_of_mem _ h'))]
      simp

theorem aliasLookup_isSome_iff (s : String) :
    (aliasLookup s).isSome =
      (["esc", "del", "space", "control", "alt", "shift", "meta"].contains s) := by
  rw [Bool.eq_iff_iff]
  unfold aliasLookup KEY_ALIAS
  rw [Option.isSome_map', List.find?_isSome]
  simp only [List.mem_cons, List.not_mem_nil, beq_iff_eq, List.contains_eq_any_beq,
    List.any_eq_true, or_false]
  constructor
  · rintro ⟨x, hx, hxs⟩
    rcases hx with rfl | rfl | rfl | rfl | rfl | rfl | rfl <;> simp_all
  · rintro ⟨x, hx, hxs⟩
    rcases hx with rfl | rfl | rfl | rfl | rfl | rfl | rfl <;> simp_all

/-! ### Claim theorems -/

/-- C1: for every dispatched keyboard or mouse event the handler fires the
callback of the FIRST binding, in registration order, that is enabled and
whose sorted-and-joined key-set equals the sorted-and-joined pressed token
set (`isMatch`); `preventDefault` is called exactly when such a binding
exists; at most one callback fires per event (`fired` is one optional
index); and a disabled matching binding blocks nothing, so a later enabled
one wins (every binding before the fired index has `isMatch = false`,
which covers the disabled ones).  When nothing fires, no binding matched. -/
theorem c1_first_enabled_match_fires (bs : List keyBinding) (dbg : Bool)
    (e : InputEvent) (r : HandleResult) (h : handleKeydown bs dbg e = some r) :
    r.prevented = r.fired.isSome ∧
    (r.fired = none → ∀ b ∈ bs, isMatch r.pressed b = false) ∧
    ∀ i, r.fired = some i →
      ∃ b, bs.get? i = some b ∧ isMatch r.pressed b = true ∧
        ∀ j b', j < i → bs.get? j = some b' → isMatch r.pressed b' = false := by
  unfold handleKeydown at h
  rcases hp : buildPressed e with _ | pressed
  · rw [hp] at h
    cases h
  · rw [hp] at h
    simp only [Option.some.injEq] at h
    subst h
    refine ⟨rfl, ?_, ?_⟩
    · intro hn
      exact (matchLoop_none_iff pressed bs).mp hn
    · intro i hi
      exact (matchLoop_some_iff pressed bs i).mp hi

/-- Witness for C1 at a concrete input: two bindings for key `s`, the
first disabled, the second enabled; dispatching a bare `s` key event
fires the second binding (index 1) and every earlier binding fails the
match test. -/
theorem c1_witness :
    ∃ b, ([{ keys := ["s"], callback := 0, description := "", enabled := false },
           { keys := ["s"], callback := 1, description := "", enabled := true }] :
            List keyBinding).get? 1 = some b ∧
      isMatch ["s"] b = true ∧
      ∀ j b', j < 1 →
        ([{ keys := ["s"], callback := 0, description := "", enabled := false },
          { keys := ["s"], callback := 1, description := "", enabled := true }] :
           List keyBinding).get? j = some b' → isMatch ["s"] b' = false :=
  (c1_first_enabled_match_fires
    [{ keys := ["s"], callback := 0, description := "", enabled := false },
     { keys := ["s"], callback := 1, description := "", enabled := true }] false
    (InputEvent.keydown false false false false "s")
    { pressed := ["s"], fired := some 1, prevented := true, debugOut := none }
    (by decide)).2.2 1 rfl

/-- C3: after any sequence of public operations from a fresh instance
there is at most one binding per distinct parsed-order join; a `bind`
call all of whose expansions are already registered returns the state
unchanged with one already-registered warning per expansion (warned, not
overwritten, not thrown); a `bind` expansion is appended exactly when no
existing binding has the same join. -/
theorem c3_duplicate_joins_never_coexist :
    (∀ ops : List Op, JoinsUnique (runOps ops).bindings) ∧
    (∀ (s : CapynautState) (keys : String) (cb : Nat) (desc : String)
       (en : Bool) (l : List (List String)),
       truthy (jsTrim keys) = true → parseKeys keys = .ok l →
       (∀ ks ∈ l, hasJoin s.bindings (joinPlus ks) = true) →
       bind s keys cb desc en =
         .ok (s, l.map (fun ks => Warning.alreadyRegistered (joinPlus ks)))) ∧
    (∀ (cb : Nat) (desc : String) (en : Bool) (bs : List keyBinding)
       (ws : List Warning) (ks : List String),
       hasJoin bs (joinPlus ks) = false →
       bindStep cb desc en (bs, ws) ks =
         (bs ++ [{ keys := ks, callback := cb, description := desc, enabled := en }],
          ws)) := by
  refine ⟨?_, ?_, ?_⟩
  · intro ops
    exact foldl_preserve (fun s => JoinsUnique s.bindings) applyOp
      (fun s op h => JoinsUnique_applyOp s op h) ops initState (by simp [initState, JoinsUnique, joins])
  · intro s keys cb desc en l htr hp halldup
    unfold bind
    rw [htr]
    simp only [Bool.not_true, Bool.false_eq_true, if_false, hp]
    rw [bind_foldl_alldup cb desc en l s.bindings [] halldup]
    simp
  · intro cb desc en bs ws ks h
    simp only [bindStep, h, Bool.false_eq_true, if_false]

/-- Witness for C3 at a concrete input: the invariant after two binds of
the same spec, and the duplicate second `bind` leaving the state unchanged
with one warning. -/
theorem c3_witness :
    JoinsUnique (runOps [Op.bindO "ctrl+s" 0 "" true,
      Op.bindO "ctrl+s" 1 "" true]).bindings ∧
    bind (runOps [Op.bindO "ctrl+s" 0 "" true]) "ctrl+s" 1 "" true =
      .ok (runOps [Op.bindO "ctrl+s" 0 "" true],
        [Warning.alreadyRegistered "ctrl+s"]) := by
  constructor
  · exact c3_duplicate_joins_never_coexist.1
      [Op.bindO "ctrl+s" 0 "" true, Op.bindO "ctrl+s" 1 "" true]
  · exact (c3_duplicate_joins_never_coexist.2.1
      (runOps [Op.bindO "ctrl+s" 0 "" true]) "ctrl+s" 1 "" true
      [["ctrl", "s"]] (by decide) (by decide) (by decide)).trans (by decide)

/-- C4 counterexample: the claim says no two bindings with an equal
canonical (sorted) key-set can coexist through the public API alone,
because `bind` rejects duplicates.  But `bind` compares parsed-order
joins, so binding `"ctrl+s"` and then `"s+ctrl"` — two public calls —
leaves two coexisting bindings whose sorted key-sets are equal. -/
theorem c4_counterexample :
    (runOps [Op.bindO "ctrl+s" 0 "" true, Op.bindO "s+ctrl" 1 "" true]).bindings =
      [{ keys := ["ctrl", "s"], callback := 0, description := "", enabled := true },
       { keys := ["s", "ctrl"], callback := 1, description := "", enabled := true }] ∧
    sortJoin ["ctrl", "s"] = sortJoin ["s", "ctrl"] := by decide

/-- C4 (amended): `bind` rejects duplicates only by parsed-order join, so
two bindings with an equal canonical (sorted) key-set CAN coexist in
states reachable through the public API alone (e.g. `"ctrl+s"` then
`"s+ctrl"`); when two registered bindings both match an event, the
earlier-registered one wins, including in such public-API-reachable
states. -/
theorem c4_amended_earlier_wins_via_public_api :
    (runOps [Op.bindO "ctrl+s" 0 "" true, Op.bindO "s+ctrl" 1 "" true]).bindings.length = 2 ∧
    sortJoin ["ctrl", "s"] = sortJoin ["s", "ctrl"] ∧
    dispatch (runOps [Op.bindO "ctrl+s" 0 "" true, Op.bindO "s+ctrl" 1 "" true])
        (InputEvent.keydown true false false false "s") =
      some { pressed := ["ctrl", "s"], fired := some 0, prevented := true,
             debugOut := none } := by decide

/-- Modelled from claim C5's words, for comparison with the code: push
the lower-cased key identifier UNLESS it is a recognized alias target
already covered by a modifier name; the alias targets covered by modifier
names are exactly ctrl, alt, shift and meta. -/
def buildPressedClaimC5 : InputEvent → Option (List String)
  | .keydown c a sh m k =>
      let keyPressed := jsToLower k
      some (modTokens c a sh m ++
        (if ["ctrl", "alt", "shift", "meta"].contains keyPressed then []
         else [keyPressed]))
  | .click c a sh m => some (modTokens c a sh m ++ ["click"])
  | .other => none

/-- C5 counterexample: for a bare `esc` key event the code pushes no main
key at all ("esc" is a key of the alias table), while the claim's rule
would push "esc", because "esc" is not an alias target covered by a
modifier name.  The code's guard is the alias-table keys, not the
modifier-covered alias targets. -/
theorem c5_counterexample :
    buildPressed (InputEvent.keydown false false false false "esc") = some [] ∧
    buildPressedClaimC5 (InputEvent.keydown false false false false "esc") =
      some ["esc"] ∧
    buildPressed (InputEvent.keydown false false false false "esc") ≠
      buildPressedClaimC5 (InputEvent.keydown false false false false "esc") := by
  decide

/-- The amended pressed-token rule, written out from scratch: modifiers in
the fixed order ctrl, alt, shift, meta; then "click" for a mouse event, or
the lower-cased key identifier for a key event unless that identifier is
one of the alias-table KEYS (esc, del, space, control, alt, shift, meta). -/
def pressedAmendedC5 : InputEvent → Option (List String)
  | .keydown c a sh m k =>
      let keyPressed := jsToLower k
      some ((if c then ["ctrl"] else []) ++ (if a then ["alt"] else []) ++
        (if sh then ["shift"] else []) ++ (if m then ["meta"] else []) ++
        (if ["esc", "del", "space", "control", "alt", "shift", "meta"].contains keyPressed
         then [] else [keyPressed]))
  | .click c a sh m =>
      some ((if c then ["ctrl"] else []) ++ (if a then ["alt"] else []) ++
        (if sh then ["shift"] else []) ++ (if m then ["meta"] else []) ++ ["click"])
  | .other => none

/-- C5 (amended): the pressed token list is the active modifiers in the
fixed order ctrl, alt, shift, meta, followed by "click" for a pointer
event or the lower-cased key identifier for a key event unless that
identifier is a key of the static alias table; events that are neither
key nor click are ignored entirely (no normalization, no debug output). -/
theorem c5_amended_pressed_tokens (bs : List keyBinding) (dbg : Bool)
    (e : InputEvent) :
    buildPressed e = pressedAmendedC5 e ∧
    handleKeydown bs dbg InputEvent.other = none := by
  refine ⟨?_, rfl⟩
  cases e with
  | keydown c a sh m k =>
      simp [buildPressed, pressedAmendedC5, modTokens, aliasLookup_isSome_iff,
        List.append_assoc]
  | click c a sh m =>
      simp [buildPressed, pressedAmendedC5, modTokens, List.append_assoc]
  | other => rfl

/-- Modelled from claim C6's words, for comparison with the code: a parser
in which only the LAST-seen alternation group governs the expansion — the
non-alternation segments form the base and only the alternatives of the
last `|`-containing segment are expanded against it. -/
def parseKeysLastGroupC6 (keys : String) : Except Err (List (List String)) :=
  let parts := keyPartsOf keys
  let base := (parts.filter (fun p => !(p.data.contains '|'))).map aliasResolve
  match (parts.filter (fun p => p.data.contains '|')).getLast? with
  | none => .ok [base]
  | some lastPart =>
      let alts := ((jsSplit '|' lastPart).map aliasResolve).filter
        (fun k => truthy (jsTrim k))
      if alts.isEmpty then .error .invalidKeys
      else .ok (alts.map (fun k => base ++ [k]))

/-- C6 counterexample: for `"a|b+c|d"` the code expands to
`[[a],[b],[c],[d]]` — the first group's alternatives `a` and `b` govern
the result as much as the last group's — while a last-group-only parser
would produce `[[c],[d]]`. -/
theorem c6_counterexample :
    parseKeys "a|b+c|d" = .ok [["a"], ["b"], ["c"], ["d"]] ∧
    parseKeysLastGroupC6 "a|b+c|d" = .ok [["c"], ["d"]] ∧
    parseKeys "a|b+c|d" ≠ parseKeysLastGroupC6 "a|b+c|d" := by decide

/-- C6 (amended): EVERY alternation group governs the expansion: the
alternatives of all `|`-containing `+`-segments are flattened into one
pool in segment order, and each alternative is appended to the shared
non-alternation base, as the two-group example shows. -/
theorem c6_amended_all_groups_govern :
    (∀ keys : String,
       keysSplitOf keys =
         ((keyPartsOf keys).filter (fun p => p.data.contains '|')).flatMap
           (fun p => (jsSplit '|' p).map aliasResolve)) ∧
    parseKeys "a|b+c|d" =
      .ok ((keysSplitOf "a|b+c|d").map (fun k => keysBaseOf "a|b+c|d" ++ [k])) := by
  exact ⟨keysSplitOf_eq, by decide⟩

/-- C2: the parser lower-cases the input, splits on `+`, trims every part
and alias-resolves it; when no part contains `|` it yields exactly one
key-sequence, the alias-resolved base; when some part contains `|` it
yields one key-sequence per non-blank alias-resolved alternative, namely
the non-alternation base followed by that alternative, in the order the
alternatives appeared, and throws the invalid-format error when zero
non-blank alternatives remain; a successful parse is never empty. -/
theorem c2_parser_expansion (keys : String) :
    (∀ l, parseKeys keys = .ok l → l ≠ []) ∧
    (keysBaseOf keys =
      ((keyPartsOf keys).filter (fun p => !(p.data.contains '|'))).map aliasResolve) ∧
    (keysSplitOf keys =
      ((keyPartsOf keys).filter (fun p => p.data.contains '|')).flatMap
        (fun p => (jsSplit '|' p).map aliasResolve)) ∧
    (keysSplitOf keys = [] → parseKeys keys = .ok [keysBaseOf keys]) ∧
    (keysSplitOf keys ≠ [] →
      ((((keysSplitOf keys).filter (fun k => truthy (jsTrim k))) = [] →
         parseKeys keys = .error Err.invalidKeys) ∧
       (((keysSplitOf keys).filter (fun k => truthy (jsTrim k))) ≠ [] →
         parseKeys keys =
           .ok (((keysSplitOf keys).filter (fun k => truthy (jsTrim k))).map
             (fun k => keysBaseOf keys ++ [k]))))) := by
  refine ⟨?_, keysBaseOf_eq keys, keysSplitOf_eq keys, ?_, ?_⟩
  · intro l hl
    unfold parseKeys at hl
    by_cases hs : (keysSplitOf keys).isEmpty
    · simp only [hs, if_true] at hl
      injection hl with h
      subst h
      simp
    · have hs' : (keysSplitOf keys).isEmpty = false := Bool.eq_false_iff.mpr hs
      simp only [hs', Bool.false_eq_true, if_false] at hl
      by_cases hm : (((keysSplitOf keys).filter (fun k => truthy (jsTrim k))).map
          (fun k => keysBaseOf keys ++ [k])).isEmpty
      · simp only [hm, if_true] at hl
        cases hl
      · have hm' := Bool.eq_false_iff.mpr hm
        simp only [hm', Bool.false_eq_true, if_false] at hl
        injection hl with h
        subst h
        intro hcon
        rw [hcon] at hm'
        simp at hm'
  · intro h
    unfold parseKeys
    simp [h]
  · intro hne
    have hs' : (keysSplitOf keys).isEmpty = false := by
      rw [Bool.eq_false_iff]
      intro hcon
      rw [List.isEmpty_iff] at hcon
      exact hne hcon
    constructor
    · intro hfil
      unfold parseKeys
      simp only [hs', Bool.false_eq_true, if_false, hfil, List.map_nil,
        List.isEmpty_nil, if_true]
    · intro hfilne
      have hm' : (((keysSplitOf keys).filter (fun k => truthy (jsTrim k))).map
          (fun k => keysBaseOf keys ++ [k])).isEmpty = false := by
        rw [Bool.eq_false_iff]
        intro hcon
        rw [List.isEmpty_iff, List.map_eq_nil_iff] at hcon
        exact hfilne hcon
      unfold parseKeys
      simp only [hs', Bool.false_eq_true, if_false, hm']

/-- Witness for C2 at a concrete input: the spec `"ctrl+c|v"` has an
alternation group with two non-blank alternatives, and the parser expands
it to `[["ctrl","c"], ["ctrl","v"]]` in that order. -/
theorem c2_witness :
    parseKeys "ctrl+c|v" = .ok [["ctrl", "c"], ["ctrl", "v"]] :=
  (((c2_parser_expansion "ctrl+c|v").2.2.2.2 (by decide)).2 (by decide)).trans
    (by decide)

/-- C7: once a spec parses, none of the registry operations throws — the
non-fatal conditions (duplicate bind, unregistered unbind / enable /
disable / rebind) only warn; and the expansions of a multi-expansion spec
are processed independently, the `bind` fold over the expansions being the
composition of the folds over any split of the list, where a duplicate
expansion only appends a warning (leaving the bindings unchanged for the
later expansions) and a fresh expansion is appended. -/
theorem c7_expansions_independent_nonfatal :
    (∀ (s : CapynautState) (keys : String) (cb : Nat) (desc : String)
       (en : Bool) (l : List (List String)),
       truthy (jsTrim keys) = true → parseKeys keys = .ok l →
       (∃ r, bind s keys cb desc en = .ok r) ∧
       (∃ r, unbind s keys = .ok r) ∧
       (∃ r, rebind s keys cb desc en = .ok r) ∧
       (∃ r, enable s keys = .ok r) ∧
       (∃ r, disable s keys = .ok r)) ∧
    (∀ (cb : Nat) (desc : String) (en : Bool)
       (acc : List keyBinding × List Warning) (l1 l2 : List (List String)),
       (l1 ++ l2).foldl (bindStep cb desc en) acc =
         l2.foldl (bindStep cb desc en) (l1.foldl (bindStep cb desc en) acc)) ∧
    (∀ (cb : Nat) (desc : String) (en : Bool) (bs : List keyBinding)
       (ws : List Warning) (ks : List String),
       hasJoin bs (joinPlus ks) = true →
       bindStep cb desc en (bs, ws) ks =
         (bs, ws ++ [Warning.alreadyRegistered (joinPlus ks)])) := by
  refine ⟨?_, ?_, ?_⟩
  · intro s keys cb desc en l htr hp
    refine ⟨?_, ?_, ?_, ?_, ?_⟩
    · unfold bind
      rw [htr]
      simp only [Bool.not_true, Bool.false_eq_true, if_false, hp]
      exact ⟨_, rfl⟩
    · unfold unbind
      rw [htr]
      simp only [Bool.not_true, Bool.false_eq_true, if_false, hp]
      exact ⟨_, rfl⟩
    · unfold rebind
      rw [htr]
      simp only [Bool.not_true, Bool.false_eq_true, if_false, hp]
      exact ⟨_, rfl⟩
    · unfold enable toggle
      rw [htr]
      simp only [Bool.not_true, Bool.false_eq_true, if_false, hp]
      exact ⟨_, rfl⟩
    · unfold disable toggle
      rw [htr]
      simp only [Bool.not_true, Bool.false_eq_true, if_false, hp]
      exact ⟨_, rfl⟩
  · intro cb desc en acc l1 l2
    exact List.foldl_append _ _ _ _
  · intro cb desc en bs ws ks h
    simp only [bindStep, h, if_true]

/-- Witness for C7 at a concrete input: with `"ctrl+v"` already bound,
`bind` of the two-expansion spec `"ctrl+c|v"` does not throw, and its
result shows partial success — the fresh expansion `ctrl+c` is appended
while the duplicate `ctrl+v` only warns. -/
theorem c7_witness :
    (∃ r, bind (runOps [Op.bindO "ctrl+v" 9 "" true]) "ctrl+c|v" 5 "" true =
      .ok r) ∧
    bind (runOps [Op.bindO "ctrl+v" 9 "" true]) "ctrl+c|v" 5 "" true =
      .ok (⟨[⟨["ctrl", "v"], 9, "", true⟩, ⟨["ctrl", "c"], 5, "", true⟩],
        true, false⟩, [Warning.alreadyRegistered "ctrl+v"]) := by
  constructor
  · exact ((c7_expansions_independent_nonfatal.1
      (runOps [Op.bindO "ctrl+v" 9 "" true]) "ctrl+c|v" 5 "" true
      [["ctrl", "c"], ["ctrl", "v"]] (by decide) (by decide))).1
  · decide

/-- C9: `enable(spec)` / `disable(spec)` set only the `enabled` field of
the bindings whose join matches a key-sequence of the spec — the result
is a pointwise map that keeps keys, callback, description, position and
length of the bindings list and leaves non-matching bindings unchanged;
when no binding matches any key-sequence the state is unchanged and one
non-fatal warning per key-sequence is surfaced. -/
theorem c9_toggle_only_enabled (s : CapynautState) (keys : String)
    (l : List (List String)) (htr : truthy (jsTrim keys) = true)
    (hp : parseKeys keys = .ok l) :
    (∃ w, enable s keys =
      .ok ({ s with bindings := s.bindings.map (fun b =>
        if l.any (fun ks => joinPlus b.keys == joinPlus ks) then
          { b with enabled := true } else b) }, w)) ∧
    (∃ w, disable s keys =
      .ok ({ s with bindings := s.bindings.map (fun b =>
        if l.any (fun ks => joinPlus b.keys == joinPlus ks) then
          { b with enabled := false } else b) }, w)) ∧
    ((∀ ks ∈ l, hasJoin s.bindings (joinPlus ks) = false) →
      enable s keys =
        .ok (s, l.map (fun ks => Warning.cannotToggle (joinPlus ks) true)) ∧
      disable s keys =
        .ok (s, l.map (fun ks => Warning.cannotToggle (joinPlus ks) false))) := by
  refine ⟨?_, ?_, ?_⟩
  · unfold enable toggle
    rw [htr]
    simp only [Bool.not_true, Bool.false_eq_true, if_false, hp]
    refine ⟨(l.foldl (toggleStep true) (s.bindings, [])).2, ?_⟩
    rw [toggle_foldl_fst true l s.bindings []]
  · unfold disable toggle
    rw [htr]
    simp only [Bool.not_true, Bool.false_eq_true, if_false, hp]
    refine ⟨(l.foldl (toggleStep false) (s.bindings, [])).2, ?_⟩
    rw [toggle_foldl_fst false l s.bindings []]
  · intro hnone
    constructor
    · unfold enable toggle
      rw [htr]
      simp only [Bool.not_true, Bool.false_eq_true, if_false, hp]
      rw [toggle_foldl_nomatch true l s.bindings [] hnone]
      simp
    · unfold disable toggle
      rw [htr]
      simp only [Bool.not_true, Bool.false_eq_true, if_false, hp]
      rw [toggle_foldl_nomatch false l s.bindings [] hnone]
      simp

/-- Witness for C9 at a concrete input: `disable("s")` on a registry with
the single binding for `s` flips only its `enabled` field, and
`enable("x")` on the same registry warns and changes nothing. -/
theorem c9_witness :
    (∃ w, disable (runOps [Op.bindO "s" 3 "d" true]) "s" =
      .ok (⟨[⟨["s"], 3, "d", false⟩], true, false⟩, w)) ∧
    enable (runOps [Op.bindO "s" 3 "d" true]) "x" =
      .ok (runOps [Op.bindO "s" 3 "d" true], [Warning.cannotToggle "x" true]) := by
  constructor
  · exact (c9_toggle_only_enabled (runOps [Op.bindO "s" 3 "d" true]) "s"
      [["s"]] (by decide) (by decide)).2.1
  · exact (((c9_toggle_only_enabled (runOps [Op.bindO "s" 3 "d" true]) "x"
      [["x"]] (by decide) (by decide)).2.2 (by decide)).1).trans (by decide)

/-- C10: when a registered binding's join matches the key-sequence of the
spec, `rebind` removes it from its position and appends the replacement
(new callback / description / enabled) at the END of the bindings list —
the relative order of all other bindings is preserved by the filter — so
the rebound shortcut's match priority becomes last; when no binding
matches, the list is unchanged and a warning is surfaced. -/
theorem c10_rebind_moves_to_end (s : CapynautState) (keys : String)
    (cb : Nat) (desc : String) (en : Bool) (ks : List String)
    (htr : truthy (jsTrim keys) = true)
    (hp : parseKeys keys = .ok [ks]) :
    (hasJoin s.bindings (joinPlus ks) = true →
      rebind s keys cb desc en =
        .ok ({ s with bindings :=
          s.bindings.filter (fun b => !(joinPlus ks == joinPlus b.keys)) ++
            [{ keys := ks, callback := cb, description := desc, enabled := en }] },
          [])) ∧
    (hasJoin s.bindings (joinPlus ks) = false →
      rebind s keys cb desc en = .ok (s, [Warning.notRegistered (joinPlus ks)])) := by
  constructor
  · intro hfound
    unfold rebind
    rw [htr]
    simp only [Bool.not_true, Bool.false_eq_true, if_false, hp,
      List.foldl_cons, List.foldl_nil]
    have hlt : (s.bindings.filter
        (fun b => !(joinPlus ks == joinPlus b.keys))).length < s.bindings.length := by
      rw [List.length_filter_lt_length_iff_exists]
      rw [hasJoin_true_iff] at hfound
      obtain ⟨b, hb, hbj⟩ := List.mem_map.mp hfound
      exact ⟨b, hb, by simp [hbj]⟩
    simp only [rebindStep, hlt, if_true]
  · intro hnone
    unfold rebind
    rw [htr]
    simp only [Bool.not_true, Bool.false_eq_true, if_false, hp,
      List.foldl_cons, List.foldl_nil]
    have hself : s.bindings.filter
        (fun b => !(joinPlus ks == joinPlus b.keys)) = s.bindings := by
      rw [List.filter_eq_self]
      intro b hb
      have h1 := hasJoin_false_forall hnone b hb
      have h2 : joinPlus ks ≠ joinPlus b.keys := by
        intro hcon
        rw [hcon] at h1
        simp at h1
      simp [h2]
    simp only [rebindStep, hself, lt_irrefl, if_false]
    rfl

/-- Witness for C10 at a concrete input: rebinding `"a"` in a registry
holding `a` then `b` removes the old `a` binding and appends the new one
after `b`; rebinding the unregistered `"c"` warns and leaves the two
bindings as they are. -/
theorem c10_witness :
    rebind (runOps [Op.bindO "a" 0 "" true, Op.bindO "b" 1 "" true]) "a" 7 "d" true =
      .ok (⟨[⟨["b"], 1, "", true⟩, ⟨["a"], 7, "d", true⟩], true, false⟩, []) ∧
    rebind (runOps [Op.bindO "a" 0 "" true, Op.bindO "b" 1 "" true]) "c" 7 "d" true =
      .ok (runOps [Op.bindO "a" 0 "" true, Op.bindO "b" 1 "" true],
        [Warning.notRegistered "c"]) := by
  constructor
  · exact ((c10_rebind_moves_to_end
      (runOps [Op.bindO "a" 0 "" true, Op.bindO "b" 1 "" true]) "a" 7 "d" true
      ["a"] (by decide) (by decide)).1 (by decide)).trans (by decide)
  · exact ((c10_rebind_moves_to_end
      (runOps [Op.bindO "a" 0 "" true, Op.bindO "b" 1 "" true]) "c" 7 "d" true
      ["c"] (by decide) (by decide)).2 (by decide)).trans (by decide)

/-- C8: `destroy()` detaches the listeners and leaves zero bindings; it is
idempotent (a second `destroy()` produces the identical state and cannot
throw, being a total function here); and after `destroy()` no dispatched
event produces any handler outcome, so no previously bound callback can be
invoked. -/
theorem c8_destroy_idempotent (s : CapynautState) (e : InputEvent) :
    (destroy s).bindings = [] ∧ (destroy s).attached = false ∧
    destroy (destroy s) = destroy s ∧ dispatch (destroy s) e = none := by
  refine ⟨rfl, rfl, rfl, ?_⟩
  simp [dispatch, destroy]

end Capynaut
